import Mathlib

/-!
Verification of the scope-aware querying and HTML form core of the
`scraper` repository (files `src/element_ref/mod.rs` and `src/html/form.rs`).

The document tree, which the repository consumes from its parser
collaborator, is embedded as a rose tree whose nodes are addressed by
child-index paths, following the arena/handle model of the design notes:
an element reference is a path, and node identity is path equality.
External collaborators (the ego-tree depth-first open/close traversal,
the CSS selector matcher interface, and the serializer) are modelled at
the interface described by the specification; the code of the two source
files is translated definition by definition.
-/

namespace Scraper

/-- Modelled from the spec: a node of the document tree is one of
Element (tag name plus insertion-ordered, unique-keyed attribute list),
Text, or Comment. -/
inductive Node where
  | element (name : String) (attrs : List (String × String))
  | text (s : String)
  | comment (s : String)
deriving DecidableEq, Repr

/-- `Node::is_element`: true exactly on the Element variant. -/
def Node.is_element : Node → Bool
  | Node.element _ _ => true
  | _ => false

/-- Modelled from the spec: the document tree is a multi-child ordered
tree of nodes, immutable once built. -/
inductive HtmlNode where
  | mk (val : Node) (children : List HtmlNode)

/-- The value stored at the root of a subtree. -/
def HtmlNode.val : HtmlNode → Node
  | HtmlNode.mk v _ => v

/-- The ordered child list of the root of a subtree. -/
def HtmlNode.children : HtmlNode → List HtmlNode
  | HtmlNode.mk _ cs => cs

/-- Node lookup by child-index path: the arena/handle reading of a
`NodeRef`.  `get t p` is the subtree addressed by `p`, if `p` is a valid
address in `t`. -/
def HtmlNode.get : HtmlNode → List Nat → Option HtmlNode
  | t, [] => some t
  | HtmlNode.mk _ cs, i :: rest =>
    match cs[i]? with
    | some c => HtmlNode.get c rest
    | none => none

/-- `ElementRef::wrap`: wraps a node reference only if it references a
`Node::Element`; the reference itself is the node's path. -/
def ElementRef.wrap (t : HtmlNode) (p : List Nat) : Option (List Nat) :=
  match HtmlNode.get t p with
  | some n => if Node.is_element (HtmlNode.val n) then some p else none
  | none => none

/-- `ElementRef::attr` through `Element::attr`: exact-name lookup in the
element's attribute list; absence is `none`, never an error. -/
def attr_of (t : HtmlNode) (p : List Nat) (name : String) : Option String :=
  match HtmlNode.get t p with
  | some (HtmlNode.mk (Node.element _ attrs) _) =>
    (attrs.find? (fun kv => kv.1 == name)).map (fun kv => kv.2)
  | _ => none

/-- `Element::name`: the tag name of the element addressed by `p`, when
`p` addresses an element. -/
def tag_of (t : HtmlNode) (p : List Nat) : Option String :=
  match HtmlNode.get t p with
  | some (HtmlNode.mk (Node.element name _) _) => some name
  | _ => none

/-- Modelled from the spec: one event of ego-tree's depth-first
open/close edge walk (`Edge::Open` / `Edge::Close`). -/
inductive Edge where
  | opened (p : List Nat)
  | closed (p : List Nat)
deriving DecidableEq, Repr

/-- The path carried by an open edge, `none` on a close edge. -/
def Edge.open_path : Edge → Option (List Nat)
  | Edge.opened p => some p
  | Edge.closed _ => none

mutual
/-- Modelled from the spec: the full depth-first open/close edge
sequence of the subtree `t` addressed at path `p` (ego-tree `Traverse`
rooted at `p`). -/
def edges_node (t : HtmlNode) (p : List Nat) : List Edge :=
  match t with
  | HtmlNode.mk _ cs => Edge.opened p :: (edges_kids cs p 0 ++ [Edge.closed p])

/-- Edge sequences of a child list whose j-th member is addressed at
`p ++ [i + j]`. -/
def edges_kids (cs : List HtmlNode) (p : List Nat) (i : Nat) : List Edge :=
  match cs with
  | [] => []
  | c :: rest => edges_node c (p ++ [i]) ++ edges_kids rest p (i + 1)
end

mutual
/-- The document (pre-)order list of the paths of all nodes of the
subtree `t` addressed at `p`, the subtree root first. -/
def preorder_node (t : HtmlNode) (p : List Nat) : List (List Nat) :=
  match t with
  | HtmlNode.mk _ cs => p :: preorder_kids cs p 0

/-- Pre-order path lists of a child list whose j-th member is addressed
at `p ++ [i + j]`. -/
def preorder_kids (cs : List HtmlNode) (p : List Nat) (i : Nat) : List (List Nat) :=
  match cs with
  | [] => []
  | c :: rest => preorder_node c (p ++ [i]) ++ preorder_kids rest p (i + 1)
end

/-- `NodeRef::traverse` as used by `ElementRef`: the edge walk of the
subtree rooted at the referenced node. -/
def ElementRef.traverse (t : HtmlNode) (p : List Nat) : List Edge :=
  match HtmlNode.get t p with
  | some sub => edges_node sub p
  | none => []

theorem get_append (t : HtmlNode) (p q : List Nat) :
    HtmlNode.get t (p ++ q) = (HtmlNode.get t p).bind (fun s => HtmlNode.get s q) := by
  induction p generalizing t with
  | nil => simp [HtmlNode.get]
  | cons i rest ih =>
    cases t with
    | mk v cs =>
      simp only [List.cons_append, HtmlNode.get]
      cases cs[i]? with
      | none => simp
      | some c => simp [ih]

/-- Modelled from the spec: the matcher's mutable, iterator-local
positional memoization structure (`selectors::NthIndexCache`). -/
def NthIndexCache : Type := List (List Nat × Nat)

/-- `NthIndexCache::default()`: the fresh, empty cache. -/
def NthIndexCache.default : NthIndexCache := []

/-- Modelled from the spec: an opaque compiled selector, consumed through
the single primitive
`matches(element, optional_scope, mutable_positional_cache) -> bool`;
the call receives the tree, the element's path, the scope's path and the
current cache, and returns the verdict together with the possibly
extended cache. -/
structure Selector where
  matches_with_scope_and_cache :
    HtmlNode → List Nat → List Nat → NthIndexCache → Bool × NthIndexCache

/-- The `Select` iterator of `element_ref/mod.rs`: fixed scope, the
remaining traversal edges, the selector, and the private positional
cache. -/
structure Select where
  scope : List Nat
  inner : List Edge
  selector : Selector
  nth_index_cache : NthIndexCache

/-- `ElementRef::select`: start the depth-first traversal at the scope
element and discard its very first event (the scope's own open edge),
with a fresh positional cache. -/
def ElementRef.select (t : HtmlNode) (p : List Nat) (sel : Selector) : Select :=
  Select.mk p ((ElementRef.traverse t p).drop 1) sel NthIndexCache.default

/-- `impl Clone for Select`: copy scope, remaining traversal position and
selector, but give the duplicate a fresh, empty positional cache. -/
def Select.clone (s : Select) : Select :=
  Select.mk s.scope s.inner s.selector NthIndexCache.default

/-- One `Select::next` search step over an explicit edge list: consume
edges until an open edge wrapping to an element matches the selector
(with the scope and the running cache); close edges and non-element open
edges are skipped without consuming cache state. -/
def select_next_aux (t : HtmlNode) (sel : Selector) (scope : List Nat) :
    List Edge → NthIndexCache → Option (List Nat × List Edge × NthIndexCache)
  | [], _ => none
  | Edge.opened p :: rest, c =>
    match ElementRef.wrap t p with
    | some element =>
      if (Selector.matches_with_scope_and_cache sel t element scope c).1 then
        some (element, rest, (Selector.matches_with_scope_and_cache sel t element scope c).2)
      else
        select_next_aux t sel scope rest
          (Selector.matches_with_scope_and_cache sel t element scope c).2
    | none => select_next_aux t sel scope rest c
  | Edge.closed _ :: rest, c => select_next_aux t sel scope rest c

/-- `Select::next` on the iterator state. -/
def Select.next (t : HtmlNode) (s : Select) : Option (List Nat × Select) :=
  match select_next_aux t s.selector s.scope s.inner s.nth_index_cache with
  | some (p, rest, c) => some (p, Select.mk s.scope rest s.selector c)
  | none => none

/-- The full yielded sequence of the iterator, unfolded over the
remaining edge list (repeatedly applying `Select::next` until
exhaustion). -/
def run_select_aux (t : HtmlNode) (sel : Selector) (scope : List Nat) :
    List Edge → NthIndexCache → List (List Nat)
  | [], _ => []
  | Edge.opened p :: rest, c =>
    match ElementRef.wrap t p with
    | some element =>
      if (Selector.matches_with_scope_and_cache sel t element scope c).1 then
        element :: run_select_aux t sel scope rest
          (Selector.matches_with_scope_and_cache sel t element scope c).2
      else
        run_select_aux t sel scope rest
          (Selector.matches_with_scope_and_cache sel t element scope c).2
    | none => run_select_aux t sel scope rest c
  | Edge.closed _ :: rest, c => run_select_aux t sel scope rest c

/-- Collecting the whole iterator (Rust `.collect()` / exhausting
`next`). -/
def Select.collect (t : HtmlNode) (s : Select) : List (List Nat) :=
  run_select_aux t s.selector s.scope s.inner s.nth_index_cache

/-- `Select.collect` is exactly the sequence obtained by iterating
`Select.next` to exhaustion. -/
theorem collect_eq_next_unfold (t : HtmlNode) (s : Select) :
    Select.collect t s =
      (match Select.next t s with
       | some (p, s') => p :: Select.collect t s'
       | none => []) := by
  cases s with
  | mk scope inner sel c =>
    simp only [Select.collect, Select.next]
    induction inner generalizing c with
    | nil => simp [run_select_aux, select_next_aux]
    | cons e rest ih =>
      cases e with
      | opened p =>
        simp only [run_select_aux, select_next_aux]
        cases hw : ElementRef.wrap t p with
        | some element =>
          simp only
          cases hm : (Selector.matches_with_scope_and_cache sel t element scope c).1 with
          | true => simp [hm]
          | false => simpa [hm] using ih _
        | none => simpa using ih c
      | closed p => simpa [run_select_aux, select_next_aux] using ih c

/-- `ElementRef::is_child_of`: walk the parent chain upward from `self`
(in the path model, repeatedly drop the last child index) and return
true iff `other` is met by identity before running out of ancestors. -/
def ElementRef.is_child_of (p other : List Nat) : Bool :=
  match p with
  | [] => false
  | i :: rest =>
    let par := (i :: rest).dropLast
    if par = other then true else ElementRef.is_child_of par other
termination_by p.length
decreasing_by simp [List.length_dropLast]

/-- `NodeRef::children` in path form: the addresses of the immediate
children of the node at `p`, in document order. -/
def children_paths (t : HtmlNode) (p : List Nat) : List (List Nat) :=
  match HtmlNode.get t p with
  | some sub => (List.range (HtmlNode.children sub).length).map (fun i => p ++ [i])
  | none => []

/-- `ElementRef::child_elements`: immediate children filtered through
`ElementRef::wrap`, keeping elements only. -/
def child_elements (t : HtmlNode) (p : List Nat) : List (List Nat) :=
  (children_paths t p).filterMap (ElementRef.wrap t)

mutual
/-- Modelled from the spec: the external serializer collaborator,
rendering one node (tag with attributes and serialized children, text,
or comment) back to markup text. -/
def serialize_one (t : HtmlNode) : String :=
  match t with
  | HtmlNode.mk (Node.element name attrs) cs =>
    "<" ++ name ++ String.join (attrs.map (fun kv => " " ++ kv.1 ++ "=\"" ++ kv.2 ++ "\"")) ++ ">"
      ++ serialize_list cs ++ "</" ++ name ++ ">"
  | HtmlNode.mk (Node.text s) _ => s
  | HtmlNode.mk (Node.comment s) _ => "<!--" ++ s ++ "-->"

/-- Serialization of a sibling list, in document order. -/
def serialize_list (cs : List HtmlNode) : String :=
  match cs with
  | [] => ""
  | c :: rest => serialize_one c ++ serialize_list rest
end

/-- `ElementRef::inner_html`: the external serializer run in
children-only traversal mode on the referenced node. -/
def inner_html (t : HtmlNode) (p : List Nat) : String :=
  match HtmlNode.get t p with
  | some sub => serialize_list (HtmlNode.children sub)
  | none => ""

/-- The fixed control tag set of the selector string
"button, fieldset, input, keygen, object, output, select, textarea"
parsed in `Form::wrap` and `Form::inputs`. -/
def control_tags : List String :=
  ["button", "fieldset", "input", "keygen", "object", "output", "select", "textarea"]

/-- Whether the node at `q` is an element whose tag name is in the
control tag set. -/
def is_control (t : HtmlNode) (q : List Nat) : Bool :=
  match tag_of t q with
  | some name => control_tags.contains name
  | none => false

/-- Modelled from the spec: the compiled selector obtained from parsing
the control tag list.  A union of bare type selectors matches an element
iff its tag name is in the set, independently of the scope, and touches
no positional cache. -/
def control_selector : Selector :=
  Selector.mk (fun t q _scope c => (is_control t q, c))

/-- `get_ids`: the element's `form` attribute and the form's `id`
attribute, both required, returned as `(id_ref, form_ref)`. -/
def get_ids (t : HtmlNode) (element form : List Nat) : Option (String × String) :=
  (attr_of t element "form").bind (fun form_ref =>
    (attr_of t form "id").map (fun id_ref => (id_ref, form_ref)))

/-- `belongs_to_form`: true iff both attributes are present and their
string values are equal. -/
def belongs_to_form (t : HtmlNode) (element form : List Nat) : Bool :=
  match get_ids t element form with
  | some (id_ref, form_ref) => id_ref == form_ref
  | none => false

/-- Outcome of value extraction: a soft optional value, or the fatal
`unimplemented!` abort of `get_value`'s catch-all arm. -/
inductive ExtractResult where
  | value (v : Option String)
  | fatal
deriving DecidableEq, Repr

/-- The scanning loop of `find_selected_child` over an explicit child
list: the first child carrying a `selected` attribute decides the
result, namely that child's `value` attribute (possibly absent). -/
def find_selected_aux (t : HtmlNode) : List (List Nat) → Option String
  | [] => none
  | c :: rest =>
    if (attr_of t c "selected").isSome then attr_of t c "value"
    else find_selected_aux t rest

/-- `find_selected_child`: scan the immediate element children for the
first one carrying a `selected` attribute and return its `value`
attribute. -/
def find_selected_child (t : HtmlNode) (element : List Nat) : Option String :=
  find_selected_aux t (child_elements t element)

/-- `get_value`: per-tag value extraction of `html/form.rs`; the Rust
`unimplemented!("Tag not known")` catch-all arm becomes the explicit
fatal outcome. -/
def get_value (t : HtmlNode) (element : List Nat) : ExtractResult :=
  match tag_of t element with
  | some "input" =>
    match attr_of t element "type" with
    | none => ExtractResult.value none
    | some "checkbox" | some "radio" => ExtractResult.value (attr_of t element "checked")
    | some "color" | some "date" | some "datetime-local" | some "email" | some "hidden"
    | some "month" | some "number" | some "password" | some "range" | some "" =>
      ExtractResult.value (attr_of t element "value")
    | some _ => ExtractResult.value none
  | some "select" => ExtractResult.value (find_selected_child t element)
  | some "datalist" => ExtractResult.value (find_selected_child t element)
  | some "textarea" => ExtractResult.value (some (inner_html t element))
  | _ => ExtractResult.fatal

/-- The `Form` value: the root, the form element, and the map from each
member control to its extracted value, in discovery order with unique
keys by node identity. -/
structure Form where
  root : List Nat
  form_element : List Nat
  values : List (List Nat × Option String)

/-- The per-control loop of `Form::wrap`: evaluate `get_value` on every
member control in discovery order; a fatal extraction aborts the whole
construction (the Rust panic propagates). -/
def collect_values (t : HtmlNode) : List (List Nat) → Option (List (List Nat × Option String))
  | [] => some []
  | e :: rest =>
    match get_value t e with
    | ExtractResult.fatal => none
    | ExtractResult.value v =>
      match collect_values t rest with
      | some vs => some ((e, v) :: vs)
      | none => none

/-- `Form::wrap`: select every control-tagged element under `root`,
keep those that are tree-descendants of the form element or satisfy
`belongs_to_form`, and store each survivor with its extracted value;
`none` models the construction aborting on a fatal extraction. -/
def Form.wrap (t : HtmlNode) (root form_element : List Nat) : Option Form :=
  match collect_values t
      ((Select.collect t (ElementRef.select t root control_selector)).filter
        (fun element => ElementRef.is_child_of element form_element
          || belongs_to_form t element form_element)) with
  | some vs => some (Form.mk root form_element vs)
  | none => none

/-- `Form::inputs`: recompute the member control list with the same
select-and-filter computation over the stored root and form element. -/
def Form.inputs (t : HtmlNode) (f : Form) : List (List Nat) :=
  (Select.collect t (ElementRef.select t f.root control_selector)).filter
    (fun element => ElementRef.is_child_of element f.form_element
      || belongs_to_form t element f.form_element)

/-- `q` is a strict descendant of `p`: a valid node of the tree, below
`p` and distinct from it (in the path model: a proper path extension). -/
def strict_descendant (t : HtmlNode) (q p : List Nat) : Prop :=
  p <+: q ∧ p ≠ q ∧ (HtmlNode.get t q).isSome = true

/-- The document (pre-)order list of the strict descendants of the node
at `p`. -/
def descendants_preorder (t : HtmlNode) (p : List Nat) : List (List Nat) :=
  match HtmlNode.get t p with
  | some sub => List.tail (preorder_node sub p)
  | none => []

theorem wrap_some_path {t : HtmlNode} {p q : List Nat}
    (h : ElementRef.wrap t p = some q) : q = p := by
  unfold ElementRef.wrap at h
  split at h
  · split at h
    · exact (Option.some_inj.mp h).symm
    · exact absurd h (by simp)
  · exact absurd h (by simp)

theorem control_of_wrap_none {t : HtmlNode} {p : List Nat}
    (h : ElementRef.wrap t p = none) : is_control t p = false := by
  unfold ElementRef.wrap at h
  unfold is_control tag_of
  cases hg : HtmlNode.get t p with
  | none => simp
  | some n =>
    rw [hg] at h
    cases n with
    | mk v cs =>
      cases v with
      | element name attrs => simp [Node.is_element, HtmlNode.val] at h
      | text s => simp
      | comment s => simp

theorem wrap_of_tag {t : HtmlNode} {p : List Nat} {name : String}
    (h : tag_of t p = some name) : ElementRef.wrap t p = some p := by
  unfold tag_of at h
  unfold ElementRef.wrap
  cases hg : HtmlNode.get t p with
  | none => rw [hg] at h; exact absurd h (by simp)
  | some n =>
    rw [hg] at h
    cases n with
    | mk v cs =>
      cases v with
      | element nm attrs => simp [Node.is_element, HtmlNode.val]
      | text s => simp at h
      | comment s => simp at h

mutual
theorem opens_edges_node (t : HtmlNode) (p : List Nat) :
    (edges_node t p).filterMap Edge.open_path = preorder_node t p := by
  cases t with
  | mk v cs =>
    rw [edges_node, preorder_node]
    simp only [List.filterMap_cons, List.filterMap_append, Edge.open_path]
    rw [opens_edges_kids cs p 0]
    simp [Edge.open_path]

theorem opens_edges_kids (cs : List HtmlNode) (p : List Nat) (i : Nat) :
    (edges_kids cs p i).filterMap Edge.open_path = preorder_kids cs p i := by
  cases cs with
  | nil => rw [edges_kids, preorder_kids]; rfl
  | cons c rest =>
    rw [edges_kids, preorder_kids]
    simp only [List.filterMap_append]
    rw [opens_edges_node c (p ++ [i]), opens_edges_kids rest p (i + 1)]
end

mutual
theorem mem_preorder_node (t : HtmlNode) (p q : List Nat) :
    q ∈ preorder_node t p ↔
      ∃ r, q = p ++ r ∧ (HtmlNode.get t r).isSome = true := by
  cases t with
  | mk v cs =>
    simp only [preorder_node, List.mem_cons]
    constructor
    · intro h
      cases h with
      | inl h => exact ⟨[], by simp [h], by simp [HtmlNode.get]⟩
      | inr h =>
        obtain ⟨j, r, c, hj, hq, hr⟩ := (mem_preorder_kids cs p 0 q).mp h
        refine ⟨(0 + j) :: r, hq, ?_⟩
        simp only [HtmlNode.get, Nat.zero_add]
        rw [hj]
        exact hr
    · rintro ⟨r, rfl, hr⟩
      cases r with
      | nil => exact Or.inl (by simp)
      | cons j r' =>
        refine Or.inr ((mem_preorder_kids cs p 0 (p ++ j :: r')).mpr ?_)
        simp only [HtmlNode.get] at hr
        cases hj : cs[j]? with
        | none => rw [hj] at hr; simp at hr
        | some c =>
          rw [hj] at hr
          exact ⟨j, r', c, hj, by simp, hr⟩

theorem mem_preorder_kids (cs : List HtmlNode) (p : List Nat) (i : Nat) (q : List Nat) :
    q ∈ preorder_kids cs p i ↔
      ∃ j r c, cs[j]? = some c ∧ q = p ++ (i + j) :: r ∧
        (HtmlNode.get c r).isSome = true := by
  cases cs with
  | nil => simp [preorder_kids]
  | cons c rest =>
    simp only [preorder_kids, List.mem_append]
    constructor
    · intro h
      cases h with
      | inl h =>
        obtain ⟨r, hq, hr⟩ := (mem_preorder_node c (p ++ [i]) q).mp h
        exact ⟨0, r, c, by simp, by simp [hq], hr⟩
      | inr h =>
        obtain ⟨j, r, c', hj, hq, hr⟩ := (mem_preorder_kids rest p (i + 1) q).mp h
        refine ⟨j + 1, r, c', by simpa using hj, ?_, hr⟩
        rw [hq]
        have harith : (i + 1) + j = i + (j + 1) := by omega
        rw [harith]
    · rintro ⟨j, r, c', hj, rfl, hr⟩
      cases j with
      | zero =>
        refine Or.inl ((mem_preorder_node c (p ++ [i]) _).mpr ?_)
        simp only [List.getElem?_cons_zero, Option.some_inj] at hj
        subst hj
        exact ⟨r, by simp, hr⟩
      | succ j' =>
        refine Or.inr ((mem_preorder_kids rest p (i + 1) _).mpr ?_)
        refine ⟨j', r, c', by simpa using hj, ?_, hr⟩
        have harith : i + (j' + 1) = (i + 1) + j' := by omega
        rw [harith]
end

theorem mem_descendants_preorder (t : HtmlNode) (p q : List Nat) :
    q ∈ descendants_preorder t p ↔ strict_descendant t q p := by
  unfold descendants_preorder strict_descendant
  cases hp : HtmlNode.get t p with
  | none =>
    simp only [List.not_mem_nil, false_iff]
    rintro ⟨⟨s, rfl⟩, hne, hq⟩
    rw [get_append, hp] at hq
    simp at hq
  | some sub =>
    cases sub with
    | mk v cs =>
      simp only [preorder_node, List.tail_cons]
      rw [mem_preorder_kids]
      constructor
      · rintro ⟨j, r, c, hj, rfl, hr⟩
        refine ⟨⟨(0 + j) :: r, rfl⟩, ?_, ?_⟩
        · intro h
          have := congrArg List.length h
          simp at this
        · rw [get_append, hp]
          simp only [Option.some_bind', HtmlNode.get, Nat.zero_add]
          rw [hj]
          exact hr
      · rintro ⟨⟨s, rfl⟩, hne, hq⟩
        cases s with
        | nil => simp at hne
        | cons j r =>
          rw [get_append, hp] at hq
          simp only [Option.some_bind', HtmlNode.get] at hq
          cases hj : cs[j]? with
          | none => rw [hj] at hq; simp at hq
          | some c =>
            rw [hj] at hq
            exact ⟨j, r, c, hj, by simp, hq⟩

theorem run_select_aux_opened_some {t : HtmlNode} {sel : Selector} {scope p : List Nat}
    {rest : List Edge} {c : NthIndexCache} {element : List Nat}
    (hw : ElementRef.wrap t p = some element) :
    run_select_aux t sel scope (Edge.opened p :: rest) c =
      (if (Selector.matches_with_scope_and_cache sel t element scope c).1 then
        element :: run_select_aux t sel scope rest
          (Selector.matches_with_scope_and_cache sel t element scope c).2
      else run_select_aux t sel scope rest
          (Selector.matches_with_scope_and_cache sel t element scope c).2) := by
  rw [run_select_aux, hw]

theorem run_select_aux_opened_none {t : HtmlNode} {sel : Selector} {scope p : List Nat}
    {rest : List Edge} {c : NthIndexCache}
    (hw : ElementRef.wrap t p = none) :
    run_select_aux t sel scope (Edge.opened p :: rest) c =
      run_select_aux t sel scope rest c := by
  rw [run_select_aux, hw]

theorem run_select_aux_closed {t : HtmlNode} {sel : Selector} {scope p : List Nat}
    {rest : List Edge} {c : NthIndexCache} :
    run_select_aux t sel scope (Edge.closed p :: rest) c =
      run_select_aux t sel scope rest c := by
  rw [run_select_aux]

theorem run_select_sublist (t : HtmlNode) (sel : Selector) (scope : List Nat)
    (edges : List Edge) :
    ∀ c : NthIndexCache,
      List.Sublist (run_select_aux t sel scope edges c)
        (edges.filterMap Edge.open_path) := by
  induction edges with
  | nil => intro c; simp [run_select_aux]
  | cons e rest ih =>
    intro c
    cases e with
    | opened p =>
      simp only [run_select_aux, List.filterMap_cons, Edge.open_path]
      cases hw : ElementRef.wrap t p with
      | some element =>
        have hep := wrap_some_path hw
        subst hep
        by_cases hm :
            (Selector.matches_with_scope_and_cache sel t element scope c).1 = true
        · simp only [hm, if_true]
          exact List.Sublist.cons₂ element (ih _)
        · simp only [hm]
          simp only [if_false, Bool.false_eq_true]
          exact List.Sublist.cons element (ih _)
      | none => exact List.Sublist.cons p (ih c)
    | closed p =>
      simp only [run_select_aux, List.filterMap_cons, Edge.open_path]
      exact ih c

theorem mem_run_select (t : HtmlNode) (sel : Selector) (scope : List Nat)
    (edges : List Edge) :
    ∀ (c : NthIndexCache) (q : List Nat), q ∈ run_select_aux t sel scope edges c →
      ElementRef.wrap t q = some q ∧
        ∃ c', (Selector.matches_with_scope_and_cache sel t q scope c').1 = true := by
  induction edges with
  | nil => intro c q h; simp [run_select_aux] at h
  | cons e rest ih =>
    intro c q h
    cases e with
    | opened p =>
      simp only [run_select_aux] at h
      cases hw : ElementRef.wrap t p with
      | some element =>
        have hep := wrap_some_path hw
        subst hep
        rw [hw] at h
        simp only at h
        by_cases hm :
            (Selector.matches_with_scope_and_cache sel t element scope c).1 = true
        · rw [if_pos hm] at h
          rcases List.mem_cons.mp h with rfl | h'
          · exact ⟨hw, c, hm⟩
          · exact ih _ q h'
        · rw [if_neg hm] at h
          exact ih _ q h
      | none =>
        rw [hw] at h
        simp only at h
        exact ih c q h
    | closed p =>
      simp only [run_select_aux] at h
      exact ih c q h

theorem run_select_control (t : HtmlNode) (scope : List Nat) (edges : List Edge) :
    ∀ c : NthIndexCache,
      run_select_aux t control_selector scope edges c =
        (edges.filterMap Edge.open_path).filter (fun q => is_control t q) := by
  induction edges with
  | nil => intro c; simp [run_select_aux]
  | cons e rest ih =>
    intro c
    cases e with
    | opened p =>
      cases hw : ElementRef.wrap t p with
      | some element =>
        have hep := wrap_some_path hw
        subst hep
        rw [run_select_aux_opened_some hw]
        have hmc : Selector.matches_with_scope_and_cache control_selector t element scope c
            = (is_control t element, c) := rfl
        rw [hmc]
        simp only [List.filterMap_cons, Edge.open_path, List.filter_cons]
        by_cases hc : is_control t element = true
        · simp [hc, ih]
        · simp [hc, ih]
      | none =>
        have hc := control_of_wrap_none hw
        rw [run_select_aux_opened_none hw]
        simp [List.filterMap_cons, Edge.open_path, List.filter_cons, hc, ih]
    | closed p =>
      rw [run_select_aux_closed]
      simp only [List.filterMap_cons, Edge.open_path]
      exact ih c

theorem traverse_eq_of_get {t : HtmlNode} {p : List Nat} {sub : HtmlNode}
    (h : HtmlNode.get t p = some sub) :
    ElementRef.traverse t p = edges_node sub p := by
  unfold ElementRef.traverse
  rw [h]

theorem traverse_eq_of_get_none {t : HtmlNode} {p : List Nat}
    (h : HtmlNode.get t p = none) : ElementRef.traverse t p = [] := by
  unfold ElementRef.traverse
  rw [h]

theorem select_inner_opens (t : HtmlNode) (p : List Nat) (sel : Selector) :
    (ElementRef.select t p sel).inner.filterMap Edge.open_path =
      descendants_preorder t p := by
  have hinner : (ElementRef.select t p sel).inner = (ElementRef.traverse t p).drop 1 := rfl
  rw [hinner]
  cases hg : HtmlNode.get t p with
  | none =>
    rw [traverse_eq_of_get_none hg]
    unfold descendants_preorder
    rw [hg]
    rfl
  | some sub =>
    cases sub with
    | mk v cs =>
      rw [traverse_eq_of_get hg]
      have hdesc : descendants_preorder t p = List.tail (preorder_node (HtmlNode.mk v cs) p) := by
        unfold descendants_preorder
        rw [hg]
      rw [hdesc, edges_node, preorder_node]
      simp only [List.drop_succ_cons, List.drop_zero, List.tail_cons]
      simp only [List.filterMap_append, opens_edges_kids cs p 0]
      simp [Edge.open_path]

theorem select_collect_control (t : HtmlNode) (root : List Nat) :
    Select.collect t (ElementRef.select t root control_selector) =
      (descendants_preorder t root).filter (fun q => is_control t q) := by
  have h1 : Select.collect t (ElementRef.select t root control_selector)
      = run_select_aux t control_selector root
          ((ElementRef.traverse t root).drop 1) NthIndexCache.default := rfl
  have h3 : (ElementRef.select t root control_selector).inner
      = (ElementRef.traverse t root).drop 1 := rfl
  rw [h1, run_select_control]
  rw [← h3, select_inner_opens]

theorem is_child_of_ne_nil (a b : List Nat) (h : a ≠ []) :
    ElementRef.is_child_of a b =
      (if a.dropLast = b then true else ElementRef.is_child_of a.dropLast b) := by
  cases a with
  | nil => exact absurd rfl h
  | cons i rest => rw [ElementRef.is_child_of]

theorem is_child_of_take (a b : List Nat) :
    ElementRef.is_child_of a b = true ↔ ∃ k, k < a.length ∧ b = a.take k := by
  induction a using List.reverseRecOn with
  | nil =>
    rw [ElementRef.is_child_of]
    simp
  | append_singleton as x ih =>
    rw [is_child_of_ne_nil (as ++ [x]) b (by simp), List.dropLast_concat]
    by_cases hab : as = b
    · subst hab
      simp only [if_pos rfl]
      constructor
      · intro _
        refine ⟨as.length, by simp, ?_⟩
        rw [List.take_append_of_le_length (Nat.le_refl _)]
        simp
      · intro _; rfl
    · rw [if_neg hab, ih]
      constructor
      · rintro ⟨k, hk, rfl⟩
        refine ⟨k, ?_, ?_⟩
        · simp only [List.length_append, List.length_cons, List.length_nil]
          omega
        · rw [List.take_append_of_le_length (by omega)]
      · rintro ⟨k, hk, hb⟩
        have hklen : k ≤ as.length + 1 := by
          simp only [List.length_append, List.length_cons, List.length_nil] at hk
          omega
        have hkne : k ≠ as.length := by
          intro hke
          apply hab
          rw [hke] at hb
          rw [List.take_append_of_le_length (Nat.le_refl _)] at hb
          simp at hb
          exact hb.symm
        have hklt : k < as.length := by
          simp only [List.length_append, List.length_cons, List.length_nil] at hk
          omega
        refine ⟨k, hklt, ?_⟩
        rw [List.take_append_of_le_length (by omega)] at hb
        exact hb

theorem is_child_of_iff_strict (a b : List Nat) :
    ElementRef.is_child_of a b = true ↔ (b <+: a ∧ b ≠ a) := by
  rw [is_child_of_take]
  constructor
  · rintro ⟨k, hk, rfl⟩
    refine ⟨List.take_prefix k a, ?_⟩
    intro h
    have hlen := congrArg List.length h
    simp only [List.length_take] at hlen
    omega
  · rintro ⟨hpre, hne⟩
    refine ⟨b.length, ?_, List.prefix_iff_eq_take.mp hpre⟩
    have hle := hpre.length_le
    rcases Nat.lt_or_ge b.length a.length with h | h
    · exact h
    · exact absurd (hpre.eq_of_length_le h) hne

theorem find_selected_aux_eq (t : HtmlNode) (l : List (List Nat)) :
    find_selected_aux t l =
      (l.find? (fun c => (attr_of t c "selected").isSome)).bind
        (fun c => attr_of t c "value") := by
  induction l with
  | nil => simp [find_selected_aux]
  | cons c rest ih =>
    rw [find_selected_aux]
    by_cases hc : (attr_of t c "selected").isSome = true
    · simp [List.find?_cons, hc]
    · simp only [hc]
      rw [List.find?_cons]
      simp only [hc]
      simp [ih, hc]

theorem collect_values_keys (t : HtmlNode) (l : List (List Nat)) :
    ∀ vs, collect_values t l = some vs → vs.map Prod.fst = l := by
  induction l with
  | nil =>
    intro vs h
    rw [collect_values] at h
    simp only [Option.some_inj] at h
    subst h
    rfl
  | cons e rest ih =>
    intro vs h
    rw [collect_values] at h
    cases hv : get_value t e with
    | fatal => rw [hv] at h; simp at h
    | value v =>
      rw [hv] at h
      cases hc : collect_values t rest with
      | none => rw [hc] at h; simp at h
      | some vs' =>
        rw [hc] at h
        simp only [Option.some_inj] at h
        subst h
        simp [ih vs' hc]

theorem collect_values_none_of_fatal (t : HtmlNode) (l : List (List Nat))
    (e : List Nat) (he : e ∈ l) (hf : get_value t e = ExtractResult.fatal) :
    collect_values t l = none := by
  induction l with
  | nil => simp at he
  | cons a rest ih =>
    rcases List.mem_cons.mp he with rfl | h'
    · rw [collect_values, hf]
    · rw [collect_values]
      cases hv : get_value t a with
      | fatal => rfl
      | value v => rw [ih h']

/-- C1: every element yielded by `S.select(Q)` is a strict descendant of
the scope element S (S itself is never yielded), matches Q when evaluated
with S as the scope anchor (with the iterator's positional cache at some
state), and the yielded sequence is, in order, a subsequence of the
document pre-order of S's strict descendants. -/
theorem select_strict_descendants_matching_in_order
    (t : HtmlNode) (p : List Nat) (sel : Selector) :
    (∀ q ∈ Select.collect t (ElementRef.select t p sel),
        strict_descendant t q p ∧
          ∃ c, (Selector.matches_with_scope_and_cache sel t q p c).1 = true) ∧
      List.Sublist (Select.collect t (ElementRef.select t p sel))
        (descendants_preorder t p) := by
  have hcol : Select.collect t (ElementRef.select t p sel)
      = run_select_aux t sel p ((ElementRef.traverse t p).drop 1)
          NthIndexCache.default := rfl
  have hopens : ((ElementRef.traverse t p).drop 1).filterMap Edge.open_path
      = descendants_preorder t p := by
    have h3 : (ElementRef.select t p sel).inner = (ElementRef.traverse t p).drop 1 := rfl
    rw [← h3, select_inner_opens]
  have hsub : List.Sublist (Select.collect t (ElementRef.select t p sel))
      (descendants_preorder t p) := by
    rw [hcol, ← hopens]
    exact run_select_sublist t sel p _ _
  refine ⟨?_, hsub⟩
  intro q hq
  have hq' : q ∈ run_select_aux t sel p ((ElementRef.traverse t p).drop 1)
      NthIndexCache.default := by rw [← hcol]; exact hq
  have hmem := mem_run_select t sel p ((ElementRef.traverse t p).drop 1)
    NthIndexCache.default q hq'
  exact ⟨(mem_descendants_preorder t p q).mp (hsub.subset hq), hmem.2⟩

/-- C2: duplicating a selection iterator (Clone) preserves the scope, the
selector and the current traversal position, gives the duplicate a
fresh, empty positional cache, the duplicate yields exactly the sequence
a fresh iterator at that position yields, and the positional cache state
accumulated by the original never affects the duplicate's results. -/
theorem select_clone_fresh_cache_equiv (t : HtmlNode) (s : Select) :
    (Select.clone s).scope = s.scope ∧
      (Select.clone s).selector = s.selector ∧
      (Select.clone s).inner = s.inner ∧
      (Select.clone s).nth_index_cache = NthIndexCache.default ∧
      Select.collect t (Select.clone s) =
        Select.collect t (Select.mk s.scope s.inner s.selector NthIndexCache.default) ∧
      ∀ c₁ c₂ : NthIndexCache,
        Select.collect t (Select.clone (Select.mk s.scope s.inner s.selector c₁)) =
          Select.collect t (Select.clone (Select.mk s.scope s.inner s.selector c₂)) :=
  ⟨rfl, rfl, rfl, rfl, rfl, fun _ _ => rfl⟩

/-- C3: an element is a member control of a form exactly when it is a
control-tagged strict descendant of the root and is either a
tree-descendant of the form element or lies outside it with a `form`
attribute matching the form's `id`; both `Form::wrap`'s value map and
`Form::inputs` apply exactly this rule. -/
theorem form_membership_rule (t : HtmlNode) (root form_element : List Nat)
    (vs : List (List Nat × Option String)) (e : List Nat) :
    (e ∈ Form.inputs t (Form.mk root form_element vs) ↔
      (strict_descendant t e root ∧ is_control t e = true ∧
        (ElementRef.is_child_of e form_element = true ∨
          (ElementRef.is_child_of e form_element = false ∧
            belongs_to_form t e form_element = true)))) ∧
      ∀ f : Form, Form.wrap t root form_element = some f →
        (e ∈ f.values.map Prod.fst ↔ e ∈ Form.inputs t (Form.mk root form_element vs)) := by
  have hinputs : Form.inputs t (Form.mk root form_element vs)
      = (Select.collect t (ElementRef.select t root control_selector)).filter
          (fun element => ElementRef.is_child_of element form_element
            || belongs_to_form t element form_element) := rfl
  constructor
  · rw [hinputs, select_collect_control]
    simp only [List.mem_filter]
    constructor
    · rintro ⟨⟨hmem, hctrl⟩, hpred⟩
      refine ⟨(mem_descendants_preorder t root e).mp hmem, hctrl, ?_⟩
      cases hic : ElementRef.is_child_of e form_element with
      | true => exact Or.inl rfl
      | false =>
        refine Or.inr ⟨rfl, ?_⟩
        have hpred' : ElementRef.is_child_of e form_element = true
            ∨ belongs_to_form t e form_element = true := by simpa using hpred
        rcases hpred' with h | h
        · rw [hic] at h; exact absurd h (by simp)
        · exact h
    · rintro ⟨hdesc, hctrl, hdisj⟩
      refine ⟨⟨(mem_descendants_preorder t root e).mpr hdesc, hctrl⟩, ?_⟩
      rcases hdisj with h | ⟨h1, h2⟩
      · simp [h]
      · simp [h2]
  · intro f hf
    unfold Form.wrap at hf
    split at hf
    · rename_i vs' heq
      have hfe := Option.some_inj.mp hf
      subst hfe
      have hkeys := collect_values_keys t _ vs' heq
      constructor
      · intro hin
        rw [hinputs]
        have : e ∈ vs'.map Prod.fst := hin
        rw [hkeys] at this
        exact this
      · intro hin
        have : e ∈ vs'.map Prod.fst := by
          rw [hkeys]
          rw [hinputs] at hin
          exact hin
        exact this
    · exact absurd hf (by simp)

/-- C4: `input` value extraction is driven by the `type` attribute:
absent type gives no value; checkbox and radio mirror the `checked`
attribute's literal value; the fixed textual type set (including the
empty string) mirrors the `value` attribute; every other type gives no
value. -/
theorem input_value_extraction (t : HtmlNode) (e : List Nat)
    (htag : tag_of t e = some "input") :
    (attr_of t e "type" = none → get_value t e = ExtractResult.value none) ∧
      (∀ ty, attr_of t e "type" = some ty → (ty = "checkbox" ∨ ty = "radio") →
        get_value t e = ExtractResult.value (attr_of t e "checked")) ∧
      (∀ ty, attr_of t e "type" = some ty →
        ty ∈ (["color", "date", "datetime-local", "email", "hidden", "month",
          "number", "password", "range", ""] : List String) →
        get_value t e = ExtractResult.value (attr_of t e "value")) ∧
      (∀ ty, attr_of t e "type" = some ty →
        ty ∉ (["checkbox", "radio"] : List String) →
        ty ∉ (["color", "date", "datetime-local", "email", "hidden", "month",
          "number", "password", "range", ""] : List String) →
        get_value t e = ExtractResult.value none) := by
  refine ⟨?_, ?_, ?_, ?_⟩
  · intro h
    unfold get_value
    rw [htag, h]
    rfl
  · intro ty hty hd
    unfold get_value
    rw [htag, hty]
    rcases hd with rfl | rfl <;> rfl
  · intro ty hty hd
    simp only [List.mem_cons, List.not_mem_nil, or_false] at hd
    unfold get_value
    rw [htag, hty]
    rcases hd with rfl | rfl | rfl | rfl | rfl | rfl | rfl | rfl | rfl | rfl <;> rfl
  · intro ty hty h1 h2
    simp only [List.mem_cons, List.mem_singleton, not_or] at h1 h2
    unfold get_value
    rw [htag, hty]
    split <;> simp_all

/-- C5: for `select` and `datalist` controls, value extraction scans the
immediate element children in document order for the first child
carrying a `selected` attribute and returns that child's `value`
attribute; no such child, or a first such child without a `value`
attribute, gives no value. -/
theorem select_datalist_value_extraction (t : HtmlNode) (e : List Nat)
    (htag : tag_of t e = some "select" ∨ tag_of t e = some "datalist") :
    get_value t e = ExtractResult.value (find_selected_child t e) ∧
      find_selected_child t e =
        ((child_elements t e).find? (fun c => (attr_of t c "selected").isSome)).bind
          (fun c => attr_of t c "value") := by
  constructor
  · rcases htag with h | h
    · unfold get_value
      rw [h]
      rfl
    · unfold get_value
      rw [h]
      rfl
  · exact find_selected_aux_eq t (child_elements t e)

/-- C6: a control whose tag is none of input, select, datalist or
textarea makes value extraction fail fatally (the `unimplemented!`
abort), and constructing a Form whose member controls contain such an
element aborts the whole construction. -/
theorem unknown_control_tag_fatal :
    (∀ (t : HtmlNode) (e : List Nat) (tg : String), tag_of t e = some tg →
        tg ∈ (["button", "fieldset", "keygen", "object", "output"] : List String) →
        get_value t e = ExtractResult.fatal) ∧
      ∀ (t : HtmlNode) (root form_element : List Nat),
        (∃ e ∈ (Select.collect t (ElementRef.select t root control_selector)).filter
            (fun element => ElementRef.is_child_of element form_element
              || belongs_to_form t element form_element),
          get_value t e = ExtractResult.fatal) →
        Form.wrap t root form_element = none := by
  constructor
  · intro t e tg htag hmem
    simp only [List.mem_cons, List.not_mem_nil, or_false] at hmem
    rcases hmem with rfl | rfl | rfl | rfl | rfl <;> (unfold get_value; rw [htag]; rfl)
  · rintro t root form_element ⟨e, he, hf⟩
    unfold Form.wrap
    rw [collect_values_none_of_fatal t _ e he hf]

/-- C7: `belongs_to_form` is true exactly when the element's `form`
attribute and the form's `id` attribute are both present with equal
string values; absence of either attribute gives false, never an
error. -/
theorem belongs_to_form_spec (t : HtmlNode) (element form : List Nat) :
    (belongs_to_form t element form = true ↔
      ∃ v, attr_of t element "form" = some v ∧ attr_of t form "id" = some v) ∧
      (attr_of t element "form" = none → belongs_to_form t element form = false) ∧
      (attr_of t form "id" = none → belongs_to_form t element form = false) := by
  unfold belongs_to_form get_ids
  cases h1 : attr_of t element "form" with
  | none => simp
  | some fv =>
    cases h2 : attr_of t form "id" with
    | none => simp
    | some iv =>
      simp only [Option.some_bind', Option.map_some']
      constructor
      · constructor
        · intro h
          exact ⟨fv, rfl, by rw [beq_iff_eq.mp h]⟩
        · rintro ⟨v, hv1, hv2⟩
          have hfv : fv = v := Option.some_inj.mp hv1
          have hiv : iv = v := Option.some_inj.mp hv2
          subst hfv
          subst hiv
          exact beq_self_eq_true _
      · exact ⟨fun h => absurd h (by simp), fun h => absurd h (by simp)⟩

/-- C8: `is_child_of` walks the parent chain and is true exactly when
the other node is a proper ancestor (a strict path prefix); it is
transitive along the ancestor chain and false on self (hence on every
non-ancestor, since the characterization is exact). -/
theorem is_child_of_strict_ancestor (a b c : List Nat) :
    (ElementRef.is_child_of a b = true ↔ (b <+: a ∧ b ≠ a)) ∧
      (ElementRef.is_child_of a b = true → ElementRef.is_child_of b c = true →
        ElementRef.is_child_of a c = true) ∧
      ElementRef.is_child_of a a = false := by
  refine ⟨is_child_of_iff_strict a b, ?_, ?_⟩
  · intro hab hbc
    obtain ⟨hb_pre, hb_ne⟩ := (is_child_of_iff_strict a b).mp hab
    obtain ⟨hc_pre, hc_ne⟩ := (is_child_of_iff_strict b c).mp hbc
    refine (is_child_of_iff_strict a c).mpr ⟨hc_pre.trans hb_pre, ?_⟩
    intro hca
    subst hca
    exact hb_ne (hb_pre.eq_of_length_le hc_pre.length_le)
  · cases h : ElementRef.is_child_of a a with
    | false => rfl
    | true =>
      obtain ⟨_, hne⟩ := (is_child_of_iff_strict a a).mp h
      exact absurd rfl hne

/-- C9: `ElementRef::wrap` returns a reference exactly when the node is
an Element variant, and the reference it returns is the node itself, so
every element reference ever constructed wraps an Element node. -/
theorem wrap_element_iff (t : HtmlNode) (p q : List Nat) :
    ElementRef.wrap t p = some q ↔
      (q = p ∧ ∃ n, HtmlNode.get t p = some n ∧
        Node.is_element (HtmlNode.val n) = true) := by
  cases hg : HtmlNode.get t p with
  | none =>
    have hw : ElementRef.wrap t p = none := by
      unfold ElementRef.wrap
      rw [hg]
    rw [hw]
    simp
  | some n =>
    by_cases he : Node.is_element (HtmlNode.val n) = true
    · have hw : ElementRef.wrap t p = some p := by
        unfold ElementRef.wrap
        rw [hg]
        simp [he]
      rw [hw]
      simp only [Option.some_inj]
      constructor
      · intro h
        exact ⟨h.symm, n, rfl, he⟩
      · rintro ⟨hq, _⟩
        exact hq.symm
    · have hw : ElementRef.wrap t p = none := by
        unfold ElementRef.wrap
        rw [hg]
        simp [he]
      rw [hw]
      simp [he]

/-- C10: whenever Form construction succeeds, the keys of the stored
value map are exactly, and in the same discovery order, the list that
`Form::inputs` recomputes over the stored root and form element. -/
theorem inputs_eq_value_keys (t : HtmlNode) (root form_element : List Nat) (f : Form)
    (h : Form.wrap t root form_element = some f) :
    f.values.map Prod.fst = Form.inputs t f := by
  unfold Form.wrap at h
  split at h
  · rename_i vs heq
    have hfe := Option.some_inj.mp h
    subst hfe
    exact collect_values_keys t _ vs heq
  · exact absurd h (by simp)

/-- A concrete document: an html root with input elements of the
different type flavors. -/
def doc_inputs : HtmlNode :=
  HtmlNode.mk (Node.element "html" [])
    [HtmlNode.mk (Node.element "input" [("type", "checkbox"), ("checked", "checked")]) [],
     HtmlNode.mk (Node.element "input" [("type", "number"), ("value", "5")]) [],
     HtmlNode.mk (Node.element "input" [("type", "submit")]) [],
     HtmlNode.mk (Node.element "input" []) []]

/-- A concrete select element with two option children, the second one
selected. -/
def doc_select : HtmlNode :=
  HtmlNode.mk (Node.element "select" [])
    [HtmlNode.mk (Node.element "option" [("value", "x")]) [],
     HtmlNode.mk (Node.element "option" [("value", "y"), ("selected", "")]) []]

/-- A concrete document with a form carrying id "a" and one nested
input control. -/
def doc_form : HtmlNode :=
  HtmlNode.mk (Node.element "html" [])
    [HtmlNode.mk (Node.element "form" [("id", "a")])
      [HtmlNode.mk (Node.element "input" []) []]]

/-- Witness for C4: the checkbox input of the concrete document yields
the literal value of its `checked` attribute. -/
theorem input_value_extraction_witness :
    get_value doc_inputs [0] = ExtractResult.value (some "checked") :=
  (input_value_extraction doc_inputs [0] rfl).2.1 "checkbox" rfl (Or.inl rfl)

/-- Witness for C5: the concrete select element yields the selected
option's value, computed by the first-selected-child scan. -/
theorem select_datalist_value_extraction_witness :
    get_value doc_select [] = ExtractResult.value (find_selected_child doc_select []) ∧
      find_selected_child doc_select [] =
        ((child_elements doc_select []).find?
            (fun c => (attr_of doc_select c "selected").isSome)).bind
          (fun c => attr_of doc_select c "value") :=
  select_datalist_value_extraction doc_select [] (Or.inl rfl)

/-- Witness for C10: on the concrete form document, the constructed
value map's keys equal the recomputed inputs list. -/
theorem inputs_eq_value_keys_witness :
    (Form.mk [] [0] [([0, 0], (none : Option String))]).values.map Prod.fst =
      Form.inputs doc_form (Form.mk [] [0] [([0, 0], (none : Option String))]) :=
  inputs_eq_value_keys doc_form [] [0] (Form.mk [] [0] [([0, 0], none)])
    (by
      unfold Form.wrap
      have hcol : Select.collect doc_form (ElementRef.select doc_form [] control_selector)
          = [[0, 0]] := rfl
      rw [hcol]
      have h1 : ElementRef.is_child_of [0, 0] [0] = true := by
        rw [is_child_of_ne_nil [0, 0] [0] (by simp)]
        simp
      simp only [List.filter_cons, List.filter_nil, h1, Bool.true_or, if_true]
      rfl)

end Scraper
